import Mathlib

/-!
# Document Pack Cache and Retrieval Engine — shallow embedding

A verification development for the document-pack RAG service
(`src/rag/docpack_manager.py`, `src/rag/retriever.py`, `src/rag/ingest.py`).

Modelling conventions:
* Python strings are `String`; Python `sorted` on strings is `List.mergeSort`
  with the code-point lexicographic comparison, spelled out on the
  character lists (`charsLE`) so that it evaluates by kernel reduction.
* `hashlib.sha256(raw).hexdigest()` is an injective digest of `raw`; it is
  modelled as the identity on the pre-image, so derived keys compare equal
  exactly when the pre-hash strings do (the injective idealization of a
  cryptographic hash).
* Python floats holding completeness scores and relevance scores are
  modelled as `Rat`: the code only ever compares them and takes `min`/`max`,
  and the constants involved (`0.0`, `0.3`, `0.6`, `1.0`) are exact.
* The global dictionaries `_packs`, `_ingest_log` and `_pack_indexes` are a
  `CacheState` record threaded explicitly through the state transitions.
* Network effects (`ingest_stage_a`) are oracles: an `IngestResult` records
  the page count, the discovered URLs, and the documents upserted into the
  pack's index, exactly the three ways the call touches the state.
-/

namespace DocPack

/-- Python truthiness for `x or default` on an optional string: `None` and
the empty string both fall back to the default. -/
def orDefault (x : Option String) (d : String) : String :=
  match x with
  | none => d
  | some s => if s = "" then d else s

/-- Python's string comparison, character by character on code points:
`[] ≤ t` always, a longer string is above its proper prefixes, and the
first differing character decides. -/
def charsLE : List Char → List Char → Bool
  | [], _ => true
  | _ :: _, [] => false
  | c :: s, d :: t => if c = d then charsLE s t else decide (c < d)

/-- The boolean comparison used to mirror Python `sorted()` on strings
(code-point lexicographic, ascending). -/
def strLE (a b : String) : Bool := charsLE a.toList b.toList

/-- Python `sorted(sources)`: a stable ascending sort on strings. -/
def sortedStrings (l : List String) : List String := l.mergeSort strLE

/-- `_key_from_sources(tech, version, lang, sources)` from
`src/rag/docpack_manager.py`: builds
`f"{tech or 'generic'}|{version or 'latest'}|{lang}|{','.join(sorted(sources))}"`
and returns its SHA-256 hex digest, modelled as the pre-hash string itself
(injective idealization of the digest). Note the sources are sorted but not
deduplicated, and the separators `|` and `,` are not escaped. -/
def key_from_sources (tech version : Option String) (lang : String)
    (sources : List String) : String :=
  orDefault tech "generic" ++ "|" ++ orDefault version "latest" ++ "|" ++ lang
    ++ "|" ++ String.intercalate "," (sortedStrings sources)

/-- `Manifest` dataclass from `src/rag/docpack_manager.py`. -/
structure Manifest where
  tech : Option String
  version : Option String
  lang : String
  sources : List String
  completeness : Rat
  ttl_days : Nat
  deriving DecidableEq

/-- An indexed document `{title, url, text}` as produced by ingestion and
stored in a pack's metadata list. -/
structure Doc where
  title : String
  url : String
  text : String
  deriving DecidableEq

/-- The module-level mutable state of `src/rag/docpack_manager.py` and
`src/rag/retriever.py`: `_packs`, `_ingest_log` (default `[]` for an absent
key, mirroring `.get(key, [])`), and each pack's index metadata
(`_pack_indexes[key]["meta"]`; the vector count `ntotal` always equals the
metadata length because `upsert_documents` appends to both in lockstep). -/
structure CacheState where
  packs : String → Option Manifest
  ingest_log : String → List String
  indexes : String → List Doc

/-- The seen-set loop shared by `_log_ingest` and `dict.fromkeys`: keep the
first occurrence of each element, in order. -/
def dedupSeen {α : Type} [DecidableEq α] (seen : List α) : List α → List α
  | [] => []
  | x :: xs => if x ∈ seen then dedupSeen seen xs else x :: dedupSeen (x :: seen) xs

/-- First-occurrence deduplication (Python `dict.fromkeys`, or the explicit
`seen` set loop in `_log_ingest` and `ingest_stage_a`). -/
def dedupFirst {α : Type} [DecidableEq α] (l : List α) : List α := dedupSeen [] l

/-- Python `l[-n:]`: the last `n` elements of a list. -/
def takeLast {α : Type} (n : Nat) (l : List α) : List α := l.drop (l.length - n)

/-- The pure content of `_log_ingest`: merge the previous log with the new
URLs, dedup the last 200 first-occurrence-wise, keep the last 50. -/
def log_ingest (prev urls : List String) : List String :=
  takeLast 50 (dedupFirst (takeLast 200 (prev ++ urls)))

/-- `_log_ingest(key, urls)` as a state transition: a no-op when `urls` is
empty (the early `return`), otherwise rewrites the key's log entry. -/
def updateLog (s : CacheState) (key : String) (urls : List String) : CacheState :=
  if urls = [] then s
  else { s with ingest_log := fun k =>
          if k = key then log_ingest (s.ingest_log key) urls else s.ingest_log k }

/-- Oracle for one `ingest_stage_a(key, ...)` call: the returned
`(count, urls)` pair plus the documents the call upserted into the pack's
index (flattened across per-source batches). -/
structure IngestResult where
  count : Nat
  urls : List String
  upserts : List Doc

/-- Append the documents an ingest run upserted into the key's index
(`upsert_documents` only ever appends to `pack_key`'s own index). -/
def applyUpserts (s : CacheState) (key : String) (docs : List Doc) : CacheState :=
  { s with indexes := fun k => if k = key then s.indexes k ++ docs else s.indexes k }

/-- `_bg_ingest(key, sources, subs, limit)` from `src/rag/docpack_manager.py`,
with the awaited `ingest_stage_a` call abstracted as `res`: log the URLs and,
only if the page count is nonzero, set the key's completeness to
`min(1.0, max(old, 0.6))`. (Python would raise `KeyError` were the key's
manifest absent; the caller creates it before scheduling this task, and the
`Option.map` update is the identity in that impossible case.) -/
def bg_ingest (s : CacheState) (key : String) (res : IngestResult) : CacheState :=
  let s1 := applyUpserts s key res.upserts
  let s2 := updateLog s1 key res.urls
  if res.count ≠ 0 then
    { s2 with packs := fun k =>
        if k = key then
          (s2.packs k).map (fun m => { m with completeness := min 1 (max m.completeness 0.6) })
        else s2.packs k }
  else s2

/-- The fields of `TopicDecision` (from `src/orchestrator/topic_agent.py`)
that `ensure_pack_for_decision` reads. -/
structure TopicDecision where
  tech : Option String
  subtopics : List String
  version : Option String
  candidate_sources : List String

/-- `ensure_pack_for_decision(decision, lang)` from
`src/rag/docpack_manager.py`, with the awaited synchronous
`ingest_stage_a(..., max_pages_per_source=15)` call abstracted as `stageA`
(the background `_bg_ingest` task it schedules is a separate transition,
`bg_ingest`). Derives the key; if a manifest exists, returns
`(key, "ready")` untouched; otherwise creates a manifest with completeness
`0`, runs the stage-A ingest, logs, sets completeness to `0.3` when any
page landed else `0`, and reports `"ready"`/`"building"` accordingly.
(`decision.candidate_sources or []` is the list itself: the field is a
non-optional list, and `[] or []` is `[]`.) -/
def ensure_pack_for_decision (s : CacheState) (d : TopicDecision) (lang : String)
    (stageA : IngestResult) : (String × String) × CacheState :=
  let tech := d.tech
  let version := orDefault d.version "latest"
  let sources := d.candidate_sources
  let key := key_from_sources tech (some version) lang sources
  match s.packs key with
  | some _ => ((key, "ready"), s)
  | none =>
    let s1 : CacheState :=
      { s with packs := fun k =>
          if k = key then some ⟨tech, some version, lang, sources, 0, 14⟩ else s.packs k }
    let s2 := applyUpserts s1 key stageA.upserts
    let s3 := updateLog s2 key stageA.urls
    let comp : Rat := if stageA.count ≠ 0 then 0.3 else 0
    let s4 : CacheState :=
      { s3 with packs := fun k =>
          if k = key then (s3.packs k).map (fun m => { m with completeness := comp })
          else s3.packs k }
    ((key, if stageA.count ≠ 0 then "ready" else "building"), s4)

/-! ## Retrieval engine (`src/rag/retriever.py`)

`retrieve_from_pack(pack_key, query, k)` reads the pack's FAISS index and
metadata, embeds the query, performs dense recall, reranks with a
cross-encoder and truncates. The embedder, the exact inner-product search
and the cross-encoder are external numeric collaborators; here

* the pack is its metadata list `meta` (the index's `ntotal` equals
  `meta.length`, see `CacheState`);
* the dense ranking of the whole index for the given query is an oracle
  list `ranking` of metadata offsets, best first: `index.search(q, n)` with
  `n ≤ ntotal` returns the first `n` entries of that ranking, and for an
  exact flat index with `n ≤ ntotal` no `-1` padding occurs, so the
  `i != -1` filter in the code drops nothing;
* the cross-encoder score of a candidate text against the (fixed) query is
  an oracle `rescore`.

`meta.getD i default` stands for the Python indexing `meta[i]`, which is
only reached in bounds (`ValidRecall`). -/

/-- A search hit `{text, url, title, score}` (transient, per query). -/
structure Hit where
  text : String
  url : String
  title : String
  score : Rat
  deriving DecidableEq

/-- A context item `{text, url, title}` returned for grounding. -/
structure ContextItem where
  text : String
  url : String
  title : String
  deriving DecidableEq

/-- A citation `{title, url, score}` returned for attribution. -/
structure Citation where
  title : String
  url : String
  score : Rat
  deriving DecidableEq

/-- `pre_k = min(max(k * 3, 30), index.ntotal)`: the number of nearest
neighbors requested from the dense index. -/
def preK (k n : Nat) : Nat := min (max (k * 3) 30) n

/-- The candidates fetched by dense recall: the metadata rows at the first
`pre_k` offsets of the dense ranking (`cands = [meta[i] for i in idxs]`).
These are exactly the rows subsequently sent to the reranker. -/
def recallCandidates (meta : List Doc) (ranking : List Nat) (k : Nat) : List Doc :=
  ((ranking.take (preK k meta.length)).map (fun i => meta.getD i ⟨"", "", ""⟩))

/-- The comparison realized by Python
`sorted(zip(cands, re_scores), key=lambda x: float(x[1]), reverse=True)`:
a stable sort that puts higher scores first. -/
def scoreGE (x y : Doc × Rat) : Bool := decide ((y.2 : Rat) ≤ x.2)

/-- `ranked`: rerank the dense-recall candidates and keep the top `k`
(stable descending sort on the rerank score, then `[:k]`). -/
def rankedCandidates (meta : List Doc) (ranking : List Nat) (rescore : String → Rat)
    (k : Nat) : List (Doc × Rat) :=
  let pairs := (recallCandidates meta ranking k).map (fun c => (c, rescore c.text))
  (pairs.mergeSort scoreGE).take k

/-- `retrieve_from_pack(pack_key, query, k)`: empty index short-circuits to
`([], [])`; otherwise dense recall, rerank, truncate, and shape the hits
into `(context, citations)` with `citations = hits[:4]`. -/
def retrieve_from_pack (meta : List Doc) (ranking : List Nat) (rescore : String → Rat)
    (k : Nat) : List ContextItem × List Citation :=
  if meta.length = 0 then ([], [])
  else
    let hits : List Hit :=
      (rankedCandidates meta ranking rescore k).map (fun cs => ⟨cs.1.text, cs.1.url, cs.1.title, cs.2⟩)
    (hits.map (fun h => ⟨h.text, h.url, h.title⟩),
     (hits.take 4).map (fun h => ⟨h.title, h.url, h.score⟩))

/-- What `faiss.IndexFlatIP.search` guarantees about the oracle ranking of a
flat exact index: one offset per stored vector, each offset in range, none
repeated. -/
def ValidRecall (meta : List Doc) (ranking : List Nat) : Prop :=
  ranking.length = meta.length ∧ ranking.Nodup ∧ ∀ i ∈ ranking, i < meta.length

/-! ## Link discovery (`src/rag/ingest.py`)

`_candidate_links(client, base_url, keywords, limit)` fetches the base
page, walks its anchors, resolves each `href` against the base with
`urljoin`, and keeps the same-domain keyword-matching ones. The fetch,
HTML parsing and `urljoin` resolution are external; the already resolved
candidate URLs are the oracle list `anchors`. A URL is modelled by its
`urlparse` components (scheme, netloc, rest) together with its rendered
text, on which Python's substring test `kw in cand.lower()` operates. -/

/-- A parsed absolute URL: `urlparse` components plus nothing lost — the
rendered string is recomposed as `scheme://netloc…rest`. -/
structure Url where
  scheme : String
  netloc : String
  rest : String
  deriving DecidableEq

/-- The URL text that `cand.lower()` is applied to. -/
def urlString (u : Url) : String := u.scheme ++ "://" ++ u.netloc ++ u.rest

/-- `_same_domain(url, candidate)` from `src/rag/ingest.py`: the netlocs
must be equal and the *candidate's* scheme must be `http` or `https`; the
base URL's scheme is never consulted. -/
def same_domain (url candidate : Url) : Bool :=
  (url.netloc = candidate.netloc) && (candidate.scheme = "http" || candidate.scheme = "https")

/-- `sub.isPrefixOf s` on characters, written out: Python `s.startswith`. -/
def charsStart : List Char → List Char → Bool
  | _, [] => true
  | [], _ :: _ => false
  | c :: s, d :: t => c = d && charsStart s t

/-- Python's `sub in s` substring test on characters (the empty string is a
substring of everything). -/
def charsContain (s sub : List Char) : Bool :=
  match s with
  | [] => sub.isEmpty
  | _ :: t => charsStart s sub || charsContain t sub

/-- Python `kw in slug` on strings. -/
def strContains (s sub : String) : Bool := charsContain s.toList sub.toList

/-- Python `s.lower()`, character-wise (ASCII case folding — the URLs and
keywords the code lowercases are ASCII). -/
def pyLower (s : String) : String := ⟨s.toList.map Char.toLower⟩

/-- Python truthiness of `k.strip()`: true iff the string has a
non-whitespace character. -/
def stripTruthy (k : String) : Bool := k.toList.any (fun c => !c.isWhitespace)

/-- The body of the anchor loop in `_candidate_links`: keep a resolved
candidate iff it is same-domain and its lowercased URL text contains one of
the prepared keywords. -/
def keepLink (base : Url) (kws : List String) (cand : Url) : Bool :=
  same_domain base cand && kws.any (fun kw => strContains (pyLower (urlString cand)) kw)

/-- `kws = [k.lower() for k in keywords if k.strip()]`: drop
whitespace-only keywords, lowercase the rest. -/
def preparedKeywords (keywords : List String) : List String :=
  (keywords.filter stripTruthy).map pyLower

/-- `_candidate_links` after the fetch: filter the resolved anchors through
the loop, then `hrefs = [base_url] + list(dict.fromkeys(hrefs))` and
`hrefs[:limit]`. -/
def candidate_links (base : Url) (anchors : List Url) (keywords : List String)
    (limit : Nat) : List Url :=
  let kws := preparedKeywords keywords
  let hrefs := anchors.filter (keepLink base kws)
  ([base] ++ dedupFirst hrefs).take limit

/-! ## Helper lemmas -/

theorem charsLE_trans : ∀ (s t u : List Char), charsLE s t → charsLE t u → charsLE s u := by
  intro s
  induction s with
  | nil => intro t u _ _; simp [charsLE]
  | cons c s ih =>
    intro t u hst htu
    cases t with
    | nil => simp [charsLE] at hst
    | cons d t =>
      cases u with
      | nil => simp [charsLE] at htu
      | cons e u =>
        simp only [charsLE] at hst htu ⊢
        by_cases hcd : c = d
        · subst hcd
          rw [if_pos rfl] at hst
          by_cases hce : c = e
          · subst hce
            rw [if_pos rfl] at htu ⊢
            exact ih t u hst htu
          · rw [if_neg hce] at htu ⊢
            exact htu
        · rw [if_neg hcd] at hst
          have hlt : c < d := by simpa using hst
          by_cases hde : d = e
          · subst hde
            rw [if_neg hcd]
            exact hst
          · rw [if_neg hde] at htu
            have hlt2 : d < e := by simpa using htu
            have hce : c < e := lt_trans hlt hlt2
            rw [if_neg (ne_of_lt hce)]
            simpa using hce

theorem charsLE_total : ∀ (s t : List Char), charsLE s t || charsLE t s := by
  intro s
  induction s with
  | nil =>
    intro t
    cases t <;> simp [charsLE]
  | cons c s ih =>
    intro t
    cases t with
    | nil => simp [charsLE]
    | cons d t =>
      simp only [charsLE]
      by_cases hcd : c = d
      · subst hcd
        rw [if_pos rfl, if_pos rfl]
        exact ih t
      · have hdc : d ≠ c := fun h => hcd h.symm
        rw [if_neg hcd, if_neg hdc]
        rcases lt_or_gt_of_ne hcd with h | h
        · simp [h]
        · simp [h]

theorem charsLE_antisymm : ∀ (s t : List Char), charsLE s t → charsLE t s → s = t := by
  intro s
  induction s with
  | nil =>
    intro t _ hts
    cases t with
    | nil => rfl
    | cons d t => simp [charsLE] at hts
  | cons c s ih =>
    intro t hst hts
    cases t with
    | nil => simp [charsLE] at hst
    | cons d t =>
      simp only [charsLE] at hst hts
      by_cases hcd : c = d
      · subst hcd
        rw [if_pos rfl] at hst hts
        rw [ih t hst hts]
      · have hdc : d ≠ c := fun h => hcd h.symm
        rw [if_neg hcd] at hst
        rw [if_neg hdc] at hts
        have h1 : c < d := by simpa using hst
        have h2 : d < c := by simpa using hts
        exact absurd (lt_trans h1 h2) (lt_irrefl c)

theorem strLE_trans : ∀ (a b c : String), strLE a b → strLE b c → strLE a c := by
  intro a b c hab hbc
  exact charsLE_trans _ _ _ hab hbc

theorem strLE_total : ∀ (a b : String), strLE a b || strLE b a := by
  intro a b
  exact charsLE_total _ _

theorem strLE_antisymm : ∀ (a b : String), strLE a b → strLE b a → a = b := by
  intro a b hab hba
  have h := charsLE_antisymm _ _ hab hba
  cases a
  cases b
  simpa [String.toList] using congrArg String.mk h

/-- Sorting with `strLE` is invariant under permutation of the input:
sorted outputs of permuted inputs are permutations of each other, and a
sorted list is determined by its multiset of elements. -/
theorem sortedStrings_perm_eq {s1 s2 : List String} (h : s1.Perm s2) :
    sortedStrings s1 = sortedStrings s2 := by
  haveI : IsAntisymm String (fun a b => strLE a b = true) := ⟨strLE_antisymm⟩
  exact List.eq_of_perm_of_sorted
    (((List.mergeSort_perm s1 strLE).trans h).trans (List.mergeSort_perm s2 strLE).symm)
    (List.sorted_mergeSort strLE_trans strLE_total s1)
    (List.sorted_mergeSort strLE_trans strLE_total s2)

theorem updateLog_packs (s : CacheState) (key : String) (urls : List String) :
    (updateLog s key urls).packs = s.packs := by
  unfold updateLog
  split <;> rfl

theorem applyUpserts_packs (s : CacheState) (key : String) (docs : List Doc) :
    (applyUpserts s key docs).packs = s.packs := rfl

theorem mem_of_mem_dedupSeen {α : Type} [DecidableEq α] (seen : List α) (l : List α)
    (x : α) (h : x ∈ dedupSeen seen l) : x ∈ l := by
  induction l generalizing seen with
  | nil => simp [dedupSeen] at h
  | cons a t ih =>
    by_cases ha : a ∈ seen
    · simp only [dedupSeen, if_pos ha] at h
      exact List.mem_cons_of_mem _ (ih _ h)
    · simp only [dedupSeen, if_neg ha, List.mem_cons] at h
      rcases h with h | h
      · simp [h]
      · exact List.mem_cons_of_mem _ (ih _ h)

theorem mem_of_mem_dedupFirst {α : Type} [DecidableEq α] {l : List α} {x : α}
    (h : x ∈ dedupFirst l) : x ∈ l :=
  mem_of_mem_dedupSeen [] l x h

/-- How `_bg_ingest` transforms the manifest map: the key's completeness is
clamped up to `[0.6, 1]` when the ingest found pages, everything else is
untouched. -/
theorem bg_ingest_packs (s : CacheState) (key : String) (res : IngestResult) :
    (bg_ingest s key res).packs = fun k =>
      if res.count ≠ 0 ∧ k = key then
        (s.packs k).map (fun m => { m with completeness := min 1 (max m.completeness 0.6) })
      else s.packs k := by
  unfold bg_ingest
  by_cases hc : res.count ≠ 0
  · rw [if_pos hc]
    funext k
    by_cases hk : k = key
    · simp [hk, hc, updateLog_packs, applyUpserts_packs]
    · simp [hk, hc, updateLog_packs, applyUpserts_packs]
  · rw [if_neg hc]
    funext k
    simp [hc, updateLog_packs, applyUpserts_packs]

/-- The cache-hit branch of `ensure_pack_for_decision`: an existing
manifest short-circuits the call to `(key, "ready")` with the state
unchanged. -/
theorem ensure_pack_hit (s : CacheState) (d : TopicDecision) (lang : String)
    (stageA : IngestResult) (m : Manifest)
    (h : s.packs (key_from_sources d.tech (some (orDefault d.version "latest")) lang
      d.candidate_sources) = some m) :
    ensure_pack_for_decision s d lang stageA =
      ((key_from_sources d.tech (some (orDefault d.version "latest")) lang
        d.candidate_sources, "ready"), s) := by
  unfold ensure_pack_for_decision
  simp only [h]

/-- The cache-miss branch of `ensure_pack_for_decision`, projected to the
manifest map: the derived key now carries the fresh manifest with
completeness `0.3` or `0`; every other key is untouched. -/
theorem ensure_pack_new_packs (s : CacheState) (d : TopicDecision) (lang : String)
    (stageA : IngestResult)
    (hkey : s.packs (key_from_sources d.tech (some (orDefault d.version "latest")) lang
      d.candidate_sources) = none) :
    (ensure_pack_for_decision s d lang stageA).2.packs = fun k =>
      if k = key_from_sources d.tech (some (orDefault d.version "latest")) lang
          d.candidate_sources then
        some ⟨d.tech, some (orDefault d.version "latest"), lang, d.candidate_sources,
          if stageA.count ≠ 0 then (0.3 : Rat) else 0, 14⟩
      else s.packs k := by
  unfold ensure_pack_for_decision
  simp only [hkey]
  funext k
  by_cases hk : k = key_from_sources d.tech (some (orDefault d.version "latest")) lang
      d.candidate_sources
  · simp [hk, updateLog_packs, applyUpserts_packs]
  · simp [hk, updateLog_packs, applyUpserts_packs]

/-! ## Claims about key derivation -/

/-- C1 (amended): the derived pack key is invariant under permutation of
the candidate source list (the sources are sorted before joining). It is
NOT invariant under duplication of a source — see
`key_from_sources_dup_cex`. -/
theorem key_from_sources_perm (tech version : Option String) (lang : String)
    (s1 s2 : List String) (h : s1.Perm s2) :
    key_from_sources tech version lang s1 = key_from_sources tech version lang s2 := by
  unfold key_from_sources
  rw [sortedStrings_perm_eq h]

/-- Witness for `key_from_sources_perm` at a concrete transposed source
list. -/
theorem key_from_sources_perm_witness :
    key_from_sources (some "python") (some "3.12") "en" ["https://b", "https://a"] =
      key_from_sources (some "python") (some "3.12") "en" ["https://a", "https://b"] :=
  key_from_sources_perm (some "python") (some "3.12") "en"
    ["https://b", "https://a"] ["https://a", "https://b"] (by decide)

/-- C1 (counterexample): duplicating a source entry changes the derived
key, because `sorted(sources)` does not deduplicate: `["https://a"]` joins
to `…|https://a` while `["https://a", "https://a"]` joins to
`…|https://a,https://a`. -/
theorem key_from_sources_dup_cex :
    key_from_sources (some "python") (some "3.12") "en" ["https://a"] ≠
      key_from_sources (some "python") (some "3.12") "en" ["https://a", "https://a"] := by
  have h1 : sortedStrings ["https://a"] = ["https://a"] := by
    simp [sortedStrings]
  have h2 : sortedStrings ["https://a", "https://a"] = ["https://a", "https://a"] :=
    List.mergeSort_of_sorted (by decide)
  simp only [key_from_sources, h1, h2]
  decide

/-- C10: the pack key function is not injective on distinct topic
descriptors: the single source `"a,b"` and the source pair `"a"`, `"b"`
comma-join to the same string, hence hash to the same key, although the
descriptors differ. -/
theorem key_from_sources_not_injective :
    key_from_sources (some "python") none "en" ["a,b"] =
        key_from_sources (some "python") none "en" ["a", "b"] ∧
      (["a,b"] : List String) ≠ ["a", "b"] := by
  constructor
  · have h1 : sortedStrings ["a,b"] = ["a,b"] := by simp [sortedStrings]
    have h2 : sortedStrings ["a", "b"] = ["a", "b"] :=
      List.mergeSort_of_sorted (by decide)
    simp only [key_from_sources, h1, h2]
    decide
  · decide

/-! ## Claims about the pack cache -/

/-- C6: when a manifest already exists for the derived key,
`ensure_pack_for_decision` returns that key with status `"ready"` and the
state — manifests, ingest log, every pack's index — completely unchanged. -/
theorem ensure_pack_existing_frame (s : CacheState) (d : TopicDecision) (lang : String)
    (stageA : IngestResult) (m : Manifest)
    (h : s.packs (key_from_sources d.tech (some (orDefault d.version "latest")) lang
      d.candidate_sources) = some m) :
    ensure_pack_for_decision s d lang stageA =
      ((key_from_sources d.tech (some (orDefault d.version "latest")) lang
        d.candidate_sources, "ready"), s) :=
  ensure_pack_hit s d lang stageA m h

def sampleManifest : Manifest :=
  ⟨some "python", some "latest", "en", ["https://a"], 0.3, 14⟩

def sampleState : CacheState :=
  ⟨fun k =>
      if k = key_from_sources (some "python") (some "latest") "en" ["https://a"] then
        some sampleManifest
      else none,
    fun _ => [], fun _ => []⟩

def sampleDecision : TopicDecision := ⟨some "python", [], none, ["https://a"]⟩

/-- Witness for `ensure_pack_existing_frame` on a concrete one-pack
state. -/
theorem ensure_pack_existing_frame_witness :
    ensure_pack_for_decision sampleState sampleDecision "en" ⟨0, [], []⟩ =
      ((key_from_sources (some "python") (some "latest") "en" ["https://a"], "ready"),
        sampleState) := by
  refine ensure_pack_existing_frame sampleState sampleDecision "en" ⟨0, [], []⟩
    sampleManifest ?_
  simp [sampleState, sampleDecision, orDefault]

/-! ## Claims about retrieval -/

/-- C7: retrieval against a pack whose index holds zero vectors returns the
pair of empty lists for every dense ranking, every reranker (hence every
query), and every positive `k` — the method short-circuits before touching
the embedder. -/
theorem retrieve_empty_index (meta : List Doc) (ranking : List Nat)
    (rescore : String → Rat) (k : Nat) (hm : meta.length = 0) (_hk : 0 < k) :
    retrieve_from_pack meta ranking rescore k = ([], []) := by
  simp [retrieve_from_pack, hm]

/-- Witness for `retrieve_empty_index` at a concrete empty pack. -/
theorem retrieve_empty_index_witness :
    retrieve_from_pack [] [0, 3] (fun _ => 7) 5 = ([], []) :=
  retrieve_empty_index [] [0, 3] (fun _ => 7) 5 (by decide) (by decide)

def cexManifest : Manifest := ⟨some "python", some "latest", "en", ["https://a"], 0, 14⟩

def cexState : CacheState :=
  ⟨fun k => if k = "key0" then some cexManifest else none, fun _ => [], fun _ => []⟩

/-- C3 (counterexample): a background ingest that finds zero pages
(`count = 0`) leaves the manifest's completeness untouched, so a pack at
completeness `0` stays strictly below `0.6` after the enrichment task
completes — the task does not unconditionally raise completeness to 0.6. -/
theorem bg_ingest_count_zero_cex :
    ((bg_ingest cexState "key0" ⟨0, [], []⟩).packs "key0").map Manifest.completeness =
        some 0 ∧
      ¬ (0.6 : Rat) ≤ 0 := by
  constructor
  · simp [bg_ingest, updateLog, applyUpserts, cexState, cexManifest]
  · norm_num

/-- C3 (amended): completeness is monotonically non-decreasing across the
ingestion lifecycle, and the background enrichment raises it to at least
`0.6` whenever it ingested at least one document. Part 1: `_bg_ingest`
never lowers an existing manifest's completeness (which stays within
`[0,1]` throughout) and pushes it to `≥ 0.6` when `count ≠ 0`. Part 2:
`ensure_pack_for_decision` never lowers the completeness of any existing
manifest. Part 3: a freshly created manifest is created at `0` and leaves
the synchronous ingest at `0.3` or `0`, both `≥ 0`. -/
theorem completeness_monotone :
    (∀ (s : CacheState) (key : String) (res : IngestResult) (m : Manifest),
        s.packs key = some m → m.completeness ≤ 1 →
        ∃ m', (bg_ingest s key res).packs key = some m' ∧
          m.completeness ≤ m'.completeness ∧
          (res.count ≠ 0 → (0.6 : Rat) ≤ m'.completeness)) ∧
    (∀ (s : CacheState) (d : TopicDecision) (lang : String) (stageA : IngestResult)
        (k : String) (m : Manifest), s.packs k = some m →
        ∃ m', (ensure_pack_for_decision s d lang stageA).2.packs k = some m' ∧
          m.completeness ≤ m'.completeness) ∧
    (∀ (s : CacheState) (d : TopicDecision) (lang : String) (stageA : IngestResult),
        s.packs (key_from_sources d.tech (some (orDefault d.version "latest")) lang
          d.candidate_sources) = none →
        ∃ m', (ensure_pack_for_decision s d lang stageA).2.packs
            (key_from_sources d.tech (some (orDefault d.version "latest")) lang
              d.candidate_sources) = some m' ∧
          (m'.completeness = 0.3 ∨ m'.completeness = 0)) := by
  refine ⟨?_, ?_, ?_⟩
  · intro s key res m hm hm1
    simp only [bg_ingest_packs]
    by_cases hc : res.count ≠ 0
    · refine ⟨{ m with completeness := min 1 (max m.completeness 0.6) }, ?_, ?_, fun _ => ?_⟩
      · simp [hc, hm]
      · exact le_min hm1 (le_max_left _ _)
      · exact le_min (by norm_num) (le_max_right _ _)
    · refine ⟨m, ?_, le_refl _, fun h => absurd h hc⟩
      simp [hc, hm]
  · intro s d lang stageA k m hm
    rcases hkey : s.packs (key_from_sources d.tech (some (orDefault d.version "latest"))
        lang d.candidate_sources) with _ | m0
    · rw [ensure_pack_new_packs s d lang stageA hkey]
      by_cases hk : k = key_from_sources d.tech (some (orDefault d.version "latest"))
          lang d.candidate_sources
      · rw [hk] at hm
        rw [hm] at hkey
        exact absurd hkey (by simp)
      · exact ⟨m, by simp [hk, hm], le_refl _⟩
    · rw [ensure_pack_hit s d lang stageA m0 hkey]
      exact ⟨m, hm, le_refl _⟩
  · intro s d lang stageA hkey
    rw [ensure_pack_new_packs s d lang stageA hkey]
    by_cases hc : stageA.count ≠ 0
    · refine ⟨⟨d.tech, some (orDefault d.version "latest"), lang, d.candidate_sources,
        0.3, 14⟩, ?_, Or.inl rfl⟩
      simp [hc]
    · refine ⟨⟨d.tech, some (orDefault d.version "latest"), lang, d.candidate_sources,
        0, 14⟩, ?_, Or.inr rfl⟩
      simp [hc]

/-- Witness for `completeness_monotone`: a concrete background ingest with
three pages raises a completeness-0 pack to exactly the floor 0.6. -/
theorem completeness_monotone_witness :
    ∃ m', (bg_ingest cexState "key0" ⟨3, ["https://a/x"], []⟩).packs "key0" = some m' ∧
      (0 : Rat) ≤ m'.completeness ∧ (0.6 : Rat) ≤ m'.completeness := by
  obtain ⟨m', h1, h2, h3⟩ :=
    completeness_monotone.1 cexState "key0" ⟨3, ["https://a/x"], []⟩ cexManifest
      (by simp [cexState]) (by norm_num [cexManifest])
  refine ⟨m', h1, ?_, h3 (by norm_num)⟩
  simpa [cexManifest] using h2

/-- Unfolding of `retrieve_from_pack` on a non-empty index. -/
theorem retrieve_from_pack_ne (meta : List Doc) (ranking : List Nat)
    (rescore : String → Rat) (k : Nat) (hm : ¬ meta.length = 0) :
    retrieve_from_pack meta ranking rescore k =
      (((rankedCandidates meta ranking rescore k).map
          (fun cs => (⟨cs.1.text, cs.1.url, cs.1.title, cs.2⟩ : Hit))).map
            (fun h => (⟨h.text, h.url, h.title⟩ : ContextItem)),
       (((rankedCandidates meta ranking rescore k).map
          (fun cs => (⟨cs.1.text, cs.1.url, cs.1.title, cs.2⟩ : Hit))).take 4).map
            (fun h => (⟨h.title, h.url, h.score⟩ : Citation))) := by
  unfold retrieve_from_pack
  rw [if_neg hm]

/-- C4: `retrieve` returns at most `k` context items and at most
`min(k, 4)` citations; the citation list has exactly `min 4 (number of
hits)` entries — all hits when fewer than 4 exist — and is the
(title, url) image of the first four context items in final rank order. -/
theorem retrieve_output_shape (meta : List Doc) (ranking : List Nat)
    (rescore : String → Rat) (k : Nat) :
    (retrieve_from_pack meta ranking rescore k).1.length ≤ k ∧
      (retrieve_from_pack meta ranking rescore k).2.length =
        min 4 (retrieve_from_pack meta ranking rescore k).1.length ∧
      (retrieve_from_pack meta ranking rescore k).2.length ≤ min k 4 ∧
      (retrieve_from_pack meta ranking rescore k).2.map (fun c => (c.title, c.url)) =
        ((retrieve_from_pack meta ranking rescore k).1.take 4).map
          (fun h => (h.title, h.url)) := by
  by_cases hm : meta.length = 0
  · simp [retrieve_from_pack, hm]
  · rw [retrieve_from_pack_ne meta ranking rescore k hm]
    refine ⟨?_, ?_, ?_, ?_⟩
    · simp [rankedCandidates]
    · simp
    · simp only [List.length_map, List.length_take, rankedCandidates]
      omega
    · simp only [List.map_take, List.map_map]
      rfl

def metaTen : List Doc := List.replicate 10 ⟨"kube", "https://kubernetes.io/docs/", "text"⟩

/-- C5: dense recall requests exactly `preK = min(max(k*3, 30), ntotal)`
neighbors: under a valid dense ranking the reranked candidate set has
exactly `preK` elements, the context `min k preK` and the citations
`min 4 (min k preK)`. -/
theorem retrieve_preK_counts (meta : List Doc) (ranking : List Nat)
    (rescore : String → Rat) (k : Nat) (hv : ValidRecall meta ranking) :
    (recallCandidates meta ranking k).length = preK k meta.length ∧
      (retrieve_from_pack meta ranking rescore k).1.length = min k (preK k meta.length) ∧
      (retrieve_from_pack meta ranking rescore k).2.length =
        min 4 (min k (preK k meta.length)) := by
  obtain ⟨hlen, -, -⟩ := hv
  have hpre : preK k meta.length ≤ meta.length := min_le_right _ _
  have h1 : (recallCandidates meta ranking k).length = preK k meta.length := by
    simp [recallCandidates, hlen]
    omega
  refine ⟨h1, ?_, ?_⟩
  · by_cases hm : meta.length = 0
    · simp [retrieve_from_pack, hm, preK]
    · rw [retrieve_from_pack_ne meta ranking rescore k hm]
      simp [rankedCandidates, h1]
  · by_cases hm : meta.length = 0
    · simp [retrieve_from_pack, hm, preK]
    · rw [retrieve_from_pack_ne meta ranking rescore k hm]
      simp [rankedCandidates, h1]

/-- Witness for `retrieve_preK_counts` at the spec's example scenario: 10
indexed documents, `k = 5`, so `preK = min(max(15,30),10) = 10` candidates
are reranked and 5 context items and 4 citations come back. -/
theorem retrieve_preK_counts_witness :
    preK 5 10 = 10 ∧
      (recallCandidates metaTen (List.range 10) 5).length = 10 ∧
      (retrieve_from_pack metaTen (List.range 10) (fun _ => 0) 5).1.length = 5 ∧
      (retrieve_from_pack metaTen (List.range 10) (fun _ => 0) 5).2.length = 4 := by
  obtain ⟨h1, h2, h3⟩ :=
    retrieve_preK_counts metaTen (List.range 10) (fun _ => 0) 5
      (by unfold ValidRecall; refine ⟨by decide, by decide, ?_⟩; decide)
  have hm : metaTen.length = 10 := by decide
  rw [hm] at h1 h2 h3
  exact ⟨by decide, by rw [h1]; decide, by rw [h2]; decide, by rw [h3]; decide⟩

/-- The tie-breaking comparison the spec describes for the truncate stage:
relevance score strictly descending, dense-recall rank (the attached
position in the candidate list) ascending as the secondary key. -/
def specLE (a b : Nat × (Doc × Rat)) : Bool :=
  decide (b.2.2 < a.2.2) || (decide (a.2.2 = b.2.2) && decide (a.1 ≤ b.1))

/-- The truncate stage as the spec words it: attach each reranked
candidate's dense-recall rank, sort by `specLE`, and drop the ranks. -/
def specRanked (pairs : List (Doc × Rat)) : List (Doc × Rat) :=
  ((pairs.enum).mergeSort specLE).map (fun p => p.2)

/-- The spec's lexicographic comparison is exactly the index-refined
comparison under which a stable sort on the score alone operates. -/
theorem specLE_eq_enumLE : specLE = List.enumLE scoreGE := by
  funext a b
  simp only [specLE, List.enumLE, scoreGE]
  by_cases hab : a.2.2 ≤ b.2.2 <;> by_cases hba : b.2.2 ≤ a.2.2
  · have he : a.2.2 = b.2.2 := le_antisymm hab hba
    simp [he]
  · have hlt : a.2.2 < b.2.2 := lt_of_le_not_le hab hba
    have h1 : ¬ b.2.2 < a.2.2 := lt_asymm hlt
    simp [h1, ne_of_lt hlt, hba]
  · have hlt : b.2.2 < a.2.2 := lt_of_le_not_le hba hab
    simp [hlt, hab, le_of_lt hlt]
  · rcases le_total a.2.2 b.2.2 with h | h <;> [exact absurd h hab; exact absurd h hba]

/-- C2: the context list returned by `retrieve` is the reranked candidate
list sorted by relevance score descending with the dense-recall rank as the
(ascending) secondary key — i.e. a stable descending sort — truncated to
the top `k`, in that final order. -/
theorem retrieve_rank_order (meta : List Doc) (ranking : List Nat)
    (rescore : String → Rat) (k : Nat) :
    (retrieve_from_pack meta ranking rescore k).1 =
      ((specRanked ((recallCandidates meta ranking k).map
          (fun c => (c, rescore c.text)))).take k).map
        (fun cs => (⟨cs.1.text, cs.1.url, cs.1.title⟩ : ContextItem)) := by
  unfold specRanked
  rw [specLE_eq_enumLE, List.mergeSort_enum]
  by_cases hm : meta.length = 0
  · simp [retrieve_from_pack, hm, recallCandidates, preK]
  · rw [retrieve_from_pack_ne meta ranking rescore k hm]
    simp only [rankedCandidates]
    simp only [List.map_take, List.map_map]
    rfl

/-! ## Claims about link discovery -/

def baseUrl : Url := ⟨"https", "example.com", "/"⟩

def httpLink : Url := ⟨"http", "example.com", "/guide"⟩

/-- C8 (counterexample): a discovered link with the base's host but scheme
`http` under an `https` base IS kept — `_same_domain` never compares the
schemes, it only requires the candidate's scheme to be http(s). -/
theorem same_origin_scheme_cex :
    candidate_links baseUrl [httpLink] ["guide"] 30 = [baseUrl, httpLink] ∧
      httpLink.scheme ≠ baseUrl.scheme := by
  constructor
  · decide
  · decide

/-- C8 (amended): every kept candidate link other than the base URL has the
base URL's host (netloc) and scheme `http` or `https`; the scheme need not
equal the base URL's scheme. -/
theorem kept_links_same_host (base : Url) (anchors : List Url) (keywords : List String)
    (limit : Nat) (c : Url) (hc : c ∈ candidate_links base anchors keywords limit) :
    c = base ∨ (c.netloc = base.netloc ∧ (c.scheme = "http" ∨ c.scheme = "https")) := by
  simp only [candidate_links] at hc
  have hc' := List.take_subset _ _ hc
  rcases List.mem_append.mp hc' with h | h
  · left
    simpa using h
  · right
    have hmem := mem_of_mem_dedupFirst h
    have hkeep : keepLink base (preparedKeywords keywords) c = true :=
      List.of_mem_filter hmem
    simp only [keepLink, same_domain, Bool.and_eq_true, Bool.or_eq_true,
      decide_eq_true_eq] at hkeep
    obtain ⟨⟨h1, h2⟩, -⟩ := hkeep
    exact ⟨h1.symm, h2⟩

/-- Witness for `kept_links_same_host`: the kept http link under the https
base from the counterexample satisfies the amended property. -/
theorem kept_links_same_host_witness :
    httpLink = baseUrl ∨ (httpLink.netloc = baseUrl.netloc ∧
      (httpLink.scheme = "http" ∨ httpLink.scheme = "https")) :=
  kept_links_same_host baseUrl [httpLink] ["guide"] 30 httpLink (by decide)

/-- The candidate page list as the spec words it (§4.2 step 3): the base
URL always first, followed by the discovered same-origin links whose URL
text contains a keyword, in discovery order with duplicates removed, the
whole list truncated to the page cap. -/
def specCandidates (base : Url) (anchors : List Url) (keywords : List String)
    (limit : Nat) : List Url :=
  (base :: dedupFirst (anchors.filter (fun c =>
    same_domain base c &&
      (preparedKeywords keywords).any
        (fun kw => strContains (pyLower (urlString c)) kw)))).take limit

/-- C9: `_candidate_links` produces exactly the spec's candidate list; with
an empty keyword list only the base URL survives (up to the cap), and with
a positive cap the base URL is always the first candidate. -/
theorem candidate_links_spec_eq (base : Url) (anchors : List Url)
    (keywords : List String) (limit : Nat) :
    candidate_links base anchors keywords limit =
        specCandidates base anchors keywords limit ∧
      candidate_links base anchors [] limit = List.take limit [base] ∧
      (0 < limit → (candidate_links base anchors keywords limit).head? = some base) := by
  refine ⟨rfl, ?_, ?_⟩
  · have hnil : anchors.filter (keepLink base (preparedKeywords [])) = [] := by
      rw [List.filter_eq_nil_iff]
      intro c _
      simp [keepLink, preparedKeywords]
    simp [candidate_links, hnil, dedupFirst, dedupSeen]
  · intro h
    cases limit with
    | zero => exact absurd h (lt_irrefl 0)
    | succ n => simp [candidate_links, List.take_succ_cons]

/-- Witness for `candidate_links_spec_eq`'s positive-cap clause at a
concrete call. -/
theorem candidate_links_spec_eq_witness :
    (candidate_links baseUrl [] ["ingress"] 3).head? = some baseUrl :=
  (candidate_links_spec_eq baseUrl [] ["ingress"] 3).2.2 (by norm_num)

end DocPack
